import Mathlib

/-!
Shallow embedding of `backend/windmill-worker/src/bash_executor.rs`.

Paths are modelled at the character-list level: a Unix path string is
decomposed into components the way Rust's `Path::components` does for the
inputs reachable here (leading `/` becomes a root marker; segments are
produced by splitting on `/`, empty segments are dropped, `.` becomes a
current-directory marker and `..` a parent-directory marker).
-/

namespace Windmill

/-- Test whether the first list is a leading segment of the second. -/
def isPrefixList : List Char → List Char → Bool
  | [], _ => true
  | _ :: _, [] => false
  | p :: ps, c :: cs => p == c && isPrefixList ps cs

/-- Rust's `str::replace`, driven by a character budget that starts at the
list's length (structural recursion on the budget keeps the definition
kernel-computable).  Whenever the nonempty pattern `pat` matches, its length
is consumed from both the list and the budget, so the budget never runs out
before the list does. -/
def listReplaceFuel (pat repl : List Char) : Nat → List Char → List Char
  | _, [] => []
  | 0, l => l
  | fuel + 1, c :: cs =>
    if !pat.isEmpty && isPrefixList pat (c :: cs) then
      repl ++ listReplaceFuel pat repl fuel (cs.drop (pat.length - 1))
    else
      c :: listReplaceFuel pat repl fuel cs

/-- Rust's `str::replace`: every non-overlapping occurrence of `pat`,
scanned left to right, is replaced by `repl` (the empty pattern replaces
nothing, which is unreachable here: every pattern used is nonempty). -/
def listReplace (pat repl l : List Char) : List Char :=
  listReplaceFuel pat repl l.length l

/-- String-level wrapper for `listReplace`. -/
def strReplace (s pat repl : String) : String :=
  ⟨listReplace pat.data repl.data s.data⟩

/-- Rust's `str::to_lowercase` for the ASCII module names that occur
here. -/
def lowerStr (s : String) : String :=
  ⟨s.data.map Char.toLower⟩

/-- Rust's `str::starts_with`. -/
def strStartsWith (s pre : String) : Bool :=
  isPrefixList pre.data s.data

/-- Rust's `str::trim`: surrounding whitespace removed from both ends. -/
def rustTrim (s : String) : String :=
  ⟨((s.data.dropWhile Char.isWhitespace).reverse.dropWhile
      Char.isWhitespace).reverse⟩

/-- Model of Rust's `std::path::Component` for Unix paths (no prefixes). -/
inductive PComponent where
  | rootDir
  | curDir
  | parentDir
  | normal (seg : List Char)
deriving DecidableEq

/-- Split a character list on a separator (keeping empty pieces). -/
def splitSep (sep : Char) : List Char → List (List Char)
  | [] => [[]]
  | c :: cs =>
    if c = sep then [] :: splitSep sep cs
    else
      match splitSep sep cs with
      | [] => [[c]]
      | s :: ss => (c :: s) :: ss

/-- Classify one raw segment the way `Path::components` does: empty segments
vanish, `.` is a current-directory marker, `..` a parent-directory marker. -/
def classifySeg (seg : List Char) : Option PComponent :=
  if seg = [] then none
  else if seg = ['.'] then some .curDir
  else if seg = ['.', '.'] then some .parentDir
  else some (.normal seg)

/-- Components of a Unix path string, as `Path::components` yields them.
Rust additionally drops `.` markers that are not in leading position; the
consumer below (`parsePathCore`) skips every `.curDir`, so keeping them all
is observationally identical. -/
def componentsOf (p : List Char) : List PComponent :=
  (if p.head? = some '/' then [PComponent.rootDir] else [])
    ++ (splitSep '/' p).filterMap classifySeg

/-- The `PathBuf` accumulator of `parse_path`: a root flag plus the pushed
segments. -/
structure NormPath where
  hasRoot : Bool
  segs : List (List Char)
deriving DecidableEq

/-- One iteration of the `for component in components` loop of `parse_path`:
`ParentDir` pops the last pushed segment (`PathBuf::pop` is a no-op on an
empty or root-only path), `CurDir` is skipped, anything else is pushed.
Pushing a `RootDir` (unreachable from `componentsOf`, which puts the root
marker only at the head) would replace the accumulator with the root path,
which is `PathBuf::push` semantics for an absolute component. -/
def ppStep (r : NormPath) : PComponent → NormPath
  | .parentDir => ⟨r.hasRoot, r.segs.dropLast⟩
  | .curDir => r
  | .normal s => ⟨r.hasRoot, r.segs ++ [s]⟩
  | .rootDir => ⟨true, []⟩

/-- The component loop of `parse_path`: push a leading root marker if
present, then fold `ppStep` over the remaining components. -/
def parsePathCore : List PComponent → NormPath
  | .rootDir :: rest => rest.foldl ppStep ⟨true, []⟩
  | rest => rest.foldl ppStep ⟨false, []⟩

/-- Join segments with `/`. -/
def intercalateSlash : List (List Char) → List Char
  | [] => []
  | [s] => s
  | s :: ss => s ++ '/' :: intercalateSlash ss

/-- Render the accumulated `PathBuf` back to its textual form. -/
def renderPath (np : NormPath) : List Char :=
  (if np.hasRoot then ['/'] else []) ++ intercalateSlash np.segs

/-- Embedding of `fn parse_path(path: &Path) -> PathBuf` (lexical
normalization), composed with the `to_str` conversion its caller applies. -/
def parse_path (p : String) : String :=
  ⟨renderPath (parsePathCore (componentsOf p.data))⟩

/-! ## Result extraction

The job directory's three result artifacts are modelled as optional file
contents: `none` means `tokio::fs::metadata` fails (file absent), `some c`
means the file exists with content `c` (its byte length is zero exactly when
`c` is empty).  Extraction returns either the raw content of `result.json`
(returned verbatim as an already-JSON-encoded value by `read_file`) or a
plain string that gets wrapped as a JSON string value by
`to_raw_value(&json!(s))`. -/

/-- The three candidate result artifacts of a job directory. -/
structure ResultFiles where
  result_json : Option String
  result_out : Option String
  result2_out : Option String
deriving DecidableEq

/-- A value returned from result extraction: either the verbatim content of
the structured `result.json` file, or a plain string wrapped as a JSON
string value. -/
inductive ExtractedResult where
  | fromJsonFile (content : String)
  | asJsonString (s : String)
deriving DecidableEq

/-- The sentinel returned when no result artifact is usable. -/
def noResultSentinel : ExtractedResult :=
  .asJsonString "No result.out, result2.out or result.json found"

/-- Third tier of bash result extraction (lines 166-177): `result2.out` if
it merely exists, regardless of size (content trimmed), else the
sentinel. -/
def bashResultTier3 (fs : ResultFiles) : ExtractedResult :=
  match fs.result2_out with
  | some c => .asJsonString (rustTrim c)
  | none => noResultSentinel

/-- Second tier of bash result extraction (lines 158-164): `result.out` if
it exists with nonzero length, wrapped as a JSON string value. -/
def bashResultTier2 (fs : ResultFiles) : ExtractedResult :=
  match fs.result_out with
  | some c => if c.length > 0 then .asJsonString c else bashResultTier3 fs
  | none => bashResultTier3 fs

/-- Embedding of the result-extraction tail of `handle_bash_job`
(bash_executor.rs lines 151-177): `result.json` if it exists with nonzero
length (content returned verbatim), else the lower tiers. -/
def handle_bash_job_result (fs : ResultFiles) : ExtractedResult :=
  match fs.result_json with
  | some c => if c.length > 0 then .fromJsonFile c else bashResultTier2 fs
  | none => bashResultTier2 fs

/-- Embedding of the result-extraction tail of `handle_powershell_job`
(bash_executor.rs lines 492-503): only `result2.out` is consulted (content
trimmed) before falling back to the sentinel; `result.json` and
`result.out` are never read. -/
def handle_powershell_job_result (fs : ResultFiles) : ExtractedResult :=
  match fs.result2_out with
  | some c => .asJsonString (rustTrim c)
  | none => noResultSentinel

/-! ## JSON values and argument binding -/

/-- Model of `serde_json::Value`; numbers are modelled as integers, which
covers every shape the claims exercise. -/
inductive JsonValue where
  | null
  | bool (b : Bool)
  | num (n : Int)
  | str (s : String)
  | arr (elems : List JsonValue)
  | obj (fields : List (String × JsonValue))

/-- JSON string escaping as `serde_json` performs it for the characters that
can appear here (quote, backslash and the common control characters). -/
def jsonEscapeChar (c : Char) : String :=
  if c = '"' then "\\\""
  else if c = '\\' then "\\\\"
  else if c = '\n' then "\\n"
  else if c = '\t' then "\\t"
  else if c = '\r' then "\\r"
  else String.singleton c

/-- Serialize a string to its quoted JSON form. -/
def jsonQuote (s : String) : String :=
  "\"" ++ String.join (s.data.map jsonEscapeChar) ++ "\""

mutual

/-- Model of `serde_json::to_string` (compact form). -/
def jsonSerialize : JsonValue → String
  | .null => "null"
  | .bool b => if b then "true" else "false"
  | .num n => toString n
  | .str s => jsonQuote s
  | .arr xs => "[" ++ jsonSerializeList xs ++ "]"
  | .obj fs => "\x7b" ++ jsonSerializeFields fs ++ "\x7d"

def jsonSerializeList : List JsonValue → String
  | [] => ""
  | [x] => jsonSerialize x
  | x :: xs => jsonSerialize x ++ "," ++ jsonSerializeList xs

def jsonSerializeFields : List (String × JsonValue) → String
  | [] => ""
  | [kv] => jsonQuote kv.1 ++ ":" ++ jsonSerialize kv.2
  | kv :: kvs => jsonQuote kv.1 ++ ":" ++ jsonSerialize kv.2 ++ "," ++ jsonSerializeFields kvs

end

/-- Embedding of `fn raw_to_string(x: &str) -> String`.  The outcome of
`serde_json::from_str::<serde_json::Value>(x)` is taken as the argument:
`none` when the raw text fails to parse as JSON, `some v` for the parsed
value.  A JSON string is unwrapped; any other JSON value is re-serialized;
a parse failure yields the empty string. -/
def raw_to_string : Option JsonValue → String
  | some (.str s) => s
  | some v => jsonSerialize v
  | none => ""

/-- A job's argument mapping, keyed by parameter name.  Each stored value is
the parse outcome of the argument's raw JSON text (see `raw_to_string`).
`none` for the whole map models `job_args` being absent. -/
def ArgsMap := Option (List (String × Option JsonValue))

/-- The per-parameter binding shared by both handlers:
`job_args.and_then(|x| x.get(name).map(|x| raw_to_string(x.get()))).unwrap_or_else(String::new)`. -/
def bindArg (jobArgs : ArgsMap) (name : String) : String :=
  match jobArgs with
  | none => ""
  | some m =>
    match m.lookup name with
    | some raw => raw_to_string raw
    | none => ""

/-- Embedding of the argument binding of `handle_bash_job` (lines 76-85):
one positional value per declared parameter, in declared order. -/
def bash_job_args (sig : List String) (jobArgs : ArgsMap) : List String :=
  sig.map (fun name => bindArg jobArgs name)

/-- Embedding of the argument binding of `handle_powershell_job`
(lines 315-330): a `--name`, `value` pair per declared parameter, in
declared order. -/
def powershell_job_args (sig : List String) (jobArgs : ArgsMap) : List String :=
  (sig.map (fun name => (name, bindArg jobArgs name))).flatMap
    (fun nv => ["--" ++ nv.1, nv.2])

/-! ## Child-process environment construction

A process environment is modelled as an association list of variable
bindings; later writes shadow earlier ones, and `envLookup` reads the most
recent binding, matching `HashMap` semantics of `tokio::process::Command`'s
environment map.  Each builder takes the worker's own inherited environment
as its first argument and starts from `env_clear()`. -/

/-- Variable bindings, most recent first. -/
def EnvList := List (String × String)

/-- Lookup of the effective value of a variable. -/
def envLookup (m : EnvList) (k : String) : Option String :=
  List.lookup k m

/-- `Command::env_clear`: every inherited variable is dropped. -/
def envClear (_worker : EnvList) : EnvList := []

/-- `Command::env`: set one variable. -/
def envSet (m : EnvList) (k v : String) : EnvList := (k, v) :: m

/-- `Command::envs`: set every binding of a map (iteration order of the
`HashMap` is immaterial for `envLookup` since its keys are distinct). -/
def envSets (m : EnvList) (kvs : List (String × String)) : EnvList :=
  kvs.foldl (fun acc kv => envSet acc kv.1 kv.2) m

/-- `reserved_variables.insert("RUST_LOG", "info")` performed by both
handlers before the map is injected (lines 67 and 424). -/
def withRustLog (reserved : EnvList) : EnvList :=
  envSet reserved "RUST_LOG" "info"

/-- Environment of the sandboxed (nsjail) child of `handle_bash_job`
(lines 108-117): clear, reserved variables (with the RUST_LOG override),
`PATH`, `BASE_INTERNAL_URL`. -/
def bash_env_sandboxed (worker reserved : EnvList) (pathEnv baseUrl : String) : EnvList :=
  envSet (envSet (envSets (envClear worker) (withRustLog reserved))
    "PATH" pathEnv) "BASE_INTERNAL_URL" baseUrl

/-- Environment of the direct child of `handle_bash_job` (lines 122-133):
clear, supplied base environment, reserved variables (with the RUST_LOG
override), `PATH`, `BASE_INTERNAL_URL`, `HOME`. -/
def bash_env_direct (worker envs reserved : EnvList)
    (pathEnv baseUrl homeEnv : String) : EnvList :=
  envSet (envSet (envSet (envSets (envSets (envClear worker) envs)
    (withRustLog reserved)) "PATH" pathEnv) "BASE_INTERNAL_URL" baseUrl) "HOME" homeEnv

/-- Environment of the sandboxed (nsjail) child of `handle_powershell_job`
(lines 449-458): clear, reserved variables (with the RUST_LOG override),
`TZ`, `PATH`, `BASE_INTERNAL_URL`. -/
def powershell_env_sandboxed (worker reserved : EnvList)
    (tzEnv pathEnv baseUrl : String) : EnvList :=
  envSet (envSet (envSet (envSets (envClear worker) (withRustLog reserved))
    "TZ" tzEnv) "PATH" pathEnv) "BASE_INTERNAL_URL" baseUrl

/-- Environment of the direct child of `handle_powershell_job`
(lines 463-474): clear, supplied base environment, reserved variables (with
the RUST_LOG override), `TZ`, `PATH`, `BASE_INTERNAL_URL`, `HOME`. -/
def powershell_env_direct (worker envs reserved : EnvList)
    (tzEnv pathEnv baseUrl homeEnv : String) : EnvList :=
  envSet (envSet (envSet (envSet (envSets (envSets (envClear worker) envs)
    (withRustLog reserved)) "TZ" tzEnv) "PATH" pathEnv)
    "BASE_INTERNAL_URL" baseUrl) "HOME" homeEnv

/-! ## PowerShell dependency resolution

`handle_powershell_deps` scans the script line by line for the anchored
pattern of imports
`^(?i)Import-Module(?-i)\s+(?:-Force\s+)?(?:-Name\s+)?(?:"([^-\s"]+)"|([^-\s']+) in single quotes|([^-\s'"]+))`.
Because the pattern is anchored at the start of the haystack, each line
yields at most one capture.  The name character classes exclude the hyphen,
so an optional flag that fails to match cannot be re-interpreted as a module
name; the deterministic committed parser below is therefore equivalent to
the backtracking regex on every line. -/

/-- The double-quote character. -/
def dq : Char := Char.ofNat 34

/-- The single-quote character. -/
def sq : Char := Char.ofNat 39

/-- Consume zero or more whitespace characters (the regex class `\s`,
restricted to the ASCII whitespace that can occur in a script line). -/
def skipWs : List Char → List Char
  | [] => []
  | c :: cs => if c.isWhitespace then skipWs cs else c :: cs

/-- Consume one or more whitespace characters (`\s+`). -/
def ws1 : List Char → Option (List Char)
  | [] => none
  | c :: cs => if c.isWhitespace then some (skipWs cs) else none

/-- Match a literal case-insensitively (`(?i)...(?-i)`). -/
def matchCI : List Char → List Char → Option (List Char)
  | [], cs => some cs
  | _ :: _, [] => none
  | p :: ps, c :: cs => if p.toLower = c.toLower then matchCI ps cs else none

/-- Match a literal case-sensitively. -/
def matchCS : List Char → List Char → Option (List Char)
  | [], cs => some cs
  | _ :: _, [] => none
  | p :: ps, c :: cs => if p = c then matchCS ps cs else none

/-- An optional flag followed by whitespace (`(?:-Flag\s+)?`).  If the flag
or its trailing whitespace is absent the input is left untouched; since a
module name can never start with a hyphen, this commitment is equivalent to
the regex's backtracking. -/
def optFlagWs (flag : List Char) (cs : List Char) : List Char :=
  match matchCS flag cs with
  | some rest =>
    match ws1 rest with
    | some rest2 => rest2
    | none => cs
  | none => cs

/-- Longest run of characters satisfying `allowed`, plus the remainder. -/
def takeRun (allowed : Char → Bool) : List Char → List Char × List Char
  | [] => ([], [])
  | c :: cs =>
    if allowed c then
      let r := takeRun allowed cs
      (c :: r.1, r.2)
    else ([], c :: cs)

/-- A quoted module name: quote, a nonempty run of characters that are not
hyphen, whitespace or the quote, then the closing quote. -/
def parseQuoted (q : Char) (cs : List Char) : Option (List Char × List Char) :=
  match cs with
  | [] => none
  | c :: cs' =>
    if c = q then
      let nr := takeRun (fun d => !(d == '-' || d.isWhitespace || d == q)) cs'
      if nr.1 = [] then none
      else
        match nr.2 with
        | [] => none
        | r :: rest' => if r = q then some (nr.1, rest') else none
    else none

/-- An unquoted module name: a nonempty run of characters that are not
hyphen, whitespace or either quote. -/
def parseUnquoted (cs : List Char) : Option (List Char × List Char) :=
  let nr := takeRun (fun d => !(d == '-' || d.isWhitespace || d == sq || d == dq)) cs
  if nr.1 = [] then none else some nr

/-- The single capture `RE_POWERSHELL_IMPORTS.captures_iter` can produce on
a line (the `^` anchor admits at most one match).  Returns
`(whole_match, raw_module)`. -/
def importCapture (line : String) : Option (String × String) :=
  let cs := line.data
  match matchCI "Import-Module".data cs with
  | none => none
  | some r1 =>
    match ws1 r1 with
    | none => none
    | some r2 =>
      let r3 := optFlagWs "-Force".data r2
      let r4 := optFlagWs "-Name".data r3
      let nameAndRest :=
        match parseQuoted dq r4 with
        | some nr => some nr
        | none =>
          match parseQuoted sq r4 with
          | some nr => some nr
          | none => parseUnquoted r4
      match nameAndRest with
      | none => none
      | some nr => some (⟨cs.take (cs.length - nr.2.length)⟩, ⟨nr.1⟩)

/-- Strip one trailing carriage return, as Rust's `str::lines` does. -/
def stripCR (l : List Char) : List Char :=
  if l.getLast? = some '\r' then l.dropLast else l

/-- Rust's `str::lines`: split on the newline terminator, without a final
empty line for a trailing newline. -/
def rustLines (s : String) : List String :=
  let ps := splitSep '\n' s.data
  (if ps.getLast? = some [] then ps.dropLast else ps).map
    (fun l => (⟨stripCR l⟩ : String))

/-- Textual form of a path component. -/
def componentText : PComponent → List Char
  | .rootDir => ['/']
  | .curDir => ['.']
  | .parentDir => ['.', '.']
  | .normal s => s

/-- `Path::new(p).parent().unwrap()`: the path minus its last component.
(`parent()` is `None` only for `""` and `"/"`, which cannot be workspace
script paths.) -/
def parentPath (p : String) : String :=
  match componentsOf p.data with
  | .rootDir :: rest => ⟨renderPath ⟨true, rest.dropLast.map componentText⟩⟩
  | cs => ⟨renderPath ⟨false, cs.dropLast.map componentText⟩⟩

/-- `Path::join` for the relative arguments that occur here: an absolute
argument replaces the base, otherwise the two are joined with a
separator. -/
def joinPath (base rel : String) : String :=
  if rel.data.head? = some '/' then rel
  else if base = "" then rel
  else if base.data.getLast? = some '/' then base ++ rel
  else base ++ "/" ++ rel

/-- The guard of the internal-workspace branch (line 228):
`module.starts_with("f/") || module.starts_with("u/") || module.starts_with('.')`. -/
def isInternalModule (module0 : String) : Bool :=
  strStartsWith module0 "f/" || strStartsWith module0 "u/"
    || strStartsWith module0 "."

/-- Lexical canonicalization of a module reference (lines 229-238): a
relative reference (leading `.`, not an `f/`-or-`u/` workspace path) is
joined against the directory of the root script and normalized by
`parse_path`; anything else is kept as written. -/
def normalizedModuleKey (src module0 : String) : String :=
  if !(strStartsWith module0 "f/") && !(strStartsWith module0 "u/")
      && strStartsWith module0 "." then
    parse_path (joinPath (parentPath src) module0)
  else module0

/-- The visited-set key of an internal module (lines 229-241): the
normalized key, aliased to the reserved `"main"` key when it equals the
root script's own path. -/
def resolveModuleKey (src module0 : String) : String :=
  let m1 := normalizedModuleKey src module0
  if m1 = src then "main" else m1

/-- One `Save-Module` install directive (lines 280-283). -/
def saveModuleDirective (cacheDir raw : String) : String :=
  "Save-Module -Path " ++ cacheDir ++ " -Force " ++ raw ++ ";"

/-- The mutable state threaded through `handle_powershell_deps`: the install
accumulator, the visited set, the log buffer and the job-directory files
written so far.  `fetches` and `writes` are instrumentation recording, in
order, the module keys queried from the script store and the module keys
whose local file is written; they let resource claims be stated without
changing any observable behavior. -/
structure RState where
  install : String
  visited : List String
  logs : String
  files : List (String × String)
  fetches : List String
  writes : List String
deriving DecidableEq

/-- The body of one iteration of `handle_powershell_deps`' capture loop
(lines 221-288), parametrized by the recursive resolution call `resolve`
used for a freshly fetched dependency.  The script store is an association
list ordered newest-first, so `List.lookup` models `SELECT content ...
ORDER BY created_at DESC` with `fetch_optional`.  The result is the updated
state and rewritten content; `none` only propagates fuel exhaustion of the
recursive call. -/
def resolveStep
    (resolve : RState → String → Option (RState × String))
    (store : List (String × String)) (installed : List String)
    (src cacheDir : String) (line : String) (st : RState) (cc : String) :
    Option (RState × String) :=
  match importCapture line with
  | none => some (st, cc)
  | some wr =>
    let whole := wr.1
    let raw := wr.2
    let module0 := strReplace raw ".ps1" ""
    if installed.contains (lowerStr module0) then
      some ({ st with logs := st.logs ++ "\n" ++ raw ++ " found in cache" }, cc)
    else if isInternalModule module0 then
      let module := resolveModuleKey src module0
      let fileName := strReplace module "/" "." ++ ".ps1"
      let cc' := strReplace cc whole (strReplace whole raw ("./" ++ fileName))
      if st.visited.contains module then
        some (st, cc')
      else
        let st1 : RState :=
          { st with visited := module :: st.visited,
                    fetches := st.fetches ++ [module] }
        match store.lookup module with
        | some depContent =>
          if (st1.files.lookup fileName).isSome then
            some (st1, cc')
          else
            match resolve st1 depContent with
            | none => none
            | some st2r =>
              some ({ st2r.1 with
                  files := (fileName, st2r.2) :: st2r.1.files,
                  writes := st2r.1.writes ++ [module] }, cc')
        | none => some (st1, cc')
    else
      some ({ st with
          logs := st.logs ++ "\n" ++ raw ++ " not found in cache",
          install := st.install ++ saveModuleDirective cacheDir raw }, cc)

/-- The line loop of `handle_powershell_deps` (line 220): fold
`resolveStep` over the lines of the original content, threading the state
and the in-progress rewritten content. -/
def resolveLines
    (resolve : RState → String → Option (RState × String))
    (store : List (String × String)) (installed : List String)
    (src cacheDir : String) :
    List String → RState → String → Option (RState × String)
  | [], st, cc => some (st, cc)
  | line :: rest, st, cc =>
    match resolveStep resolve store installed src cacheDir line st cc with
    | none => none
    | some p => resolveLines resolve store installed src cacheDir rest p.1 p.2

/-- Embedding of `handle_powershell_deps` (lines 208-291).  The Rust
recursion has no fuel; the explicit fuel makes the embedding total, and the
termination theorem shows that `depsMeasure + 1` fuel always suffices, so
no reachable execution exhausts it. -/
def handle_powershell_deps
    (store : List (String × String)) (installed : List String)
    (src cacheDir : String) : Nat → RState → String → Option (RState × String)
  | 0, _, _ => none
  | fuel + 1, st, content =>
    resolveLines (handle_powershell_deps store installed src cacheDir fuel)
      store installed src cacheDir (rustLines content) st content

/-- The distinct script paths present in the store. -/
def storeKeys (store : List (String × String)) : List String :=
  (store.map Prod.fst).dedup

/-- Number of store paths not yet visited: the quantity that shrinks at
every recursive resolution step. -/
def depsMeasure (store : List (String × String)) (st : RState) : Nat :=
  ((storeKeys store).filter (fun k => !(st.visited.contains k))).length

/-- The batched install step of `handle_powershell_job` (lines 363-386):
the accumulated directives are executed by a single `pwsh -Command`
invocation, and only when the accumulator is non-empty. -/
def installInvocations (installString : String) : List (List String) :=
  if installString = "" then [] else [["pwsh", "-Command", installString]]

/-- The segments `parse_path` can push: nonempty, not a dot marker, free of
separators. -/
def goodSeg (s : List Char) : Prop :=
  s ≠ [] ∧ s ≠ ['.'] ∧ s ≠ ['.', '.'] ∧ '/' ∉ s

/-- The state-evolution invariant of one resolution pass rooted at `src`:
the visited set only grows, and the fetch and write traces extend by keys
that were unvisited when the pass started — each new key at most once — and
that are visited afterwards; moreover every newly fetched or written key is
either the reserved `"main"` alias or differs from the root script's own
path key. -/
def StExtends (src : String) (st st' : RState) : Prop :=
  (∀ k ∈ st.visited, k ∈ st'.visited)
  ∧ (∃ newF, st'.fetches = st.fetches ++ newF ∧ newF.Nodup
      ∧ ∀ k ∈ newF, (k ∉ st.visited ∧ k ∈ st'.visited) ∧ (k = "main" ∨ k ≠ src))
  ∧ (∃ newW, st'.writes = st.writes ++ newW ∧ newW.Nodup
      ∧ ∀ k ∈ newW, (k ∉ st.visited ∧ k ∈ st'.visited) ∧ (k = "main" ∨ k ≠ src))

/-! ## Helper lemmas -/

theorem classifySeg_ne_rootDir {seg : List Char} {c : PComponent}
    (h : classifySeg seg = some c) : c ≠ PComponent.rootDir := by
  unfold classifySeg at h
  split_ifs at h <;> cases h <;> simp

theorem foldl_ppStep_hasRoot (cs : List PComponent) (r : NormPath)
    (h : ∀ c ∈ cs, c ≠ PComponent.rootDir) :
    (cs.foldl ppStep r).hasRoot = r.hasRoot := by
  induction cs generalizing r with
  | nil => rfl
  | cons c cs ih =>
    have hc := h c (List.mem_cons_self c cs)
    have hstep : (ppStep r c).hasRoot = r.hasRoot := by
      cases c <;> simp_all [ppStep]
    rw [List.foldl_cons, ih _ (fun d hd => h d (List.mem_cons_of_mem _ hd)), hstep]

theorem componentsOf_tail_ne_rootDir {p : List Char} {c : PComponent}
    (h : c ∈ (splitSep '/' p).filterMap classifySeg) : c ≠ PComponent.rootDir := by
  obtain ⟨seg, _, hcl⟩ := List.mem_filterMap.mp h
  exact classifySeg_ne_rootDir hcl

theorem parse_path_keeps_root (p : String) (hp : p.data.head? = some '/') :
    (parse_path p).data.head? = some '/' := by
  show (renderPath (parsePathCore (componentsOf p.data))).head? = some '/'
  rw [componentsOf, if_pos hp]
  have : parsePathCore (PComponent.rootDir ::
      (splitSep '/' p.data).filterMap classifySeg)
      = ((splitSep '/' p.data).filterMap classifySeg).foldl ppStep ⟨true, []⟩ := rfl
  rw [List.singleton_append, this]
  have hroot := foldl_ppStep_hasRoot
    ((splitSep '/' p.data).filterMap classifySeg) ⟨true, []⟩
    (fun c hc => componentsOf_tail_ne_rootDir hc)
  rw [renderPath, hroot]
  simp

/-! ## Claims -/

/-- C7: `parse_path` is a pure lexical normalizer: a leading root marker is
preserved, current-directory markers are dropped, a parent-directory marker
removes the last pushed segment and is a no-op when the accumulator is
already empty; `a/b/../c` normalizes to `a/c` and `/a/../../b` to `/b`. -/
theorem parse_path_lexical_normalizer :
    (∀ p : String, p.data.head? = some '/' → (parse_path p).data.head? = some '/')
  ∧ (∀ r : NormPath, ppStep r .curDir = r)
  ∧ (∀ r : NormPath, ppStep r .parentDir = ⟨r.hasRoot, r.segs.dropLast⟩)
  ∧ (∀ b : Bool, ppStep ⟨b, []⟩ .parentDir = ⟨b, []⟩)
  ∧ parse_path "a/b/../c" = "a/c"
  ∧ parse_path "/a/../../b" = "/b" :=
  ⟨parse_path_keeps_root, fun _ => rfl, fun _ => rfl, fun _ => rfl,
    by decide, by decide⟩

/-- C7 witness: the root-preservation clause instantiated at `/a`. -/
theorem parse_path_lexical_normalizer_witness :
    ("/a" : String).data.head? = some '/'
      ∧ (parse_path "/a").data.head? = some '/' :=
  ⟨by decide, parse_path_lexical_normalizer.1 "/a" (by decide)⟩

/-- C1: bash result extraction follows the fixed, total precedence:
a `result.json` that exists with nonzero length is returned verbatim;
else a `result.out` that exists with nonzero length is wrapped as a JSON
string; else a `result2.out` that merely exists (regardless of size) is
trimmed and wrapped as a JSON string; else the fixed sentinel is returned,
with no error for a missing result. -/
theorem bash_result_precedence_total (fs : ResultFiles) :
    (∀ c, fs.result_json = some c → c.length > 0 →
      handle_bash_job_result fs = .fromJsonFile c)
  ∧ ((∀ c, fs.result_json = some c → c.length = 0) →
      (∀ c, fs.result_out = some c → c.length > 0 →
        handle_bash_job_result fs = .asJsonString c)
      ∧ ((∀ c, fs.result_out = some c → c.length = 0) →
          (∀ c, fs.result2_out = some c →
            handle_bash_job_result fs = .asJsonString (rustTrim c))
          ∧ (fs.result2_out = none →
              handle_bash_job_result fs = noResultSentinel))) := by
  obtain ⟨j, o, t⟩ := fs
  refine ⟨?_, fun hj => ⟨?_, fun ho => ⟨?_, ?_⟩⟩⟩
  · rintro c rfl hc
    simp [handle_bash_job_result, hc]
  · rintro c rfl hc
    cases j with
    | none => simp [handle_bash_job_result, bashResultTier2, hc]
    | some cj =>
      have := hj cj rfl
      simp [handle_bash_job_result, bashResultTier2, hc, this]
  · rintro c rfl
    cases j with
    | none =>
      cases o with
      | none => simp [handle_bash_job_result, bashResultTier2, bashResultTier3]
      | some co =>
        have := ho co rfl
        simp [handle_bash_job_result, bashResultTier2, bashResultTier3, this]
    | some cj =>
      have hcj := hj cj rfl
      cases o with
      | none => simp [handle_bash_job_result, bashResultTier2, bashResultTier3, hcj]
      | some co =>
        have := ho co rfl
        simp [handle_bash_job_result, bashResultTier2, bashResultTier3, hcj, this]
  · rintro rfl
    cases j with
    | none =>
      cases o with
      | none => simp [handle_bash_job_result, bashResultTier2, bashResultTier3]
      | some co =>
        have := ho co rfl
        simp [handle_bash_job_result, bashResultTier2, bashResultTier3, this]
    | some cj =>
      have hcj := hj cj rfl
      cases o with
      | none => simp [handle_bash_job_result, bashResultTier2, bashResultTier3, hcj]
      | some co =>
        have := ho co rfl
        simp [handle_bash_job_result, bashResultTier2, bashResultTier3, hcj, this]

/-- C1 witness: the first tier applied to a concrete state where
`result.json` holds `{"a":1}` while `result.out` is also nonempty. -/
theorem bash_result_precedence_total_witness :
    handle_bash_job_result ⟨some "\x7b\"a\":1\x7d", some "x", some "y"⟩
      = .fromJsonFile "\x7b\"a\":1\x7d" :=
  (bash_result_precedence_total ⟨some "\x7b\"a\":1\x7d", some "x", some "y"⟩).1
    "\x7b\"a\":1\x7d" rfl (by decide)

/-- C3 (code bug evidence): at a state where `result.json` exists with the
nonempty content `{"a":1}` and `result.out` is nonempty, the powershell
extraction returns the trimmed `result2.out` text instead of the structured
`result.json` content: the claimed precedence does not hold in the code. -/
theorem powershell_result_extraction_divergence :
    handle_powershell_job_result ⟨some "\x7b\"a\":1\x7d", some "x", some " y "⟩
      = .asJsonString "y"
  ∧ handle_powershell_job_result ⟨some "\x7b\"a\":1\x7d", some "x", some " y "⟩
      ≠ .fromJsonFile "\x7b\"a\":1\x7d"
  ∧ handle_powershell_job_result ⟨some "\x7b\"a\":1\x7d", none, none⟩
      = noResultSentinel := by
  refine ⟨by decide, by decide, by decide⟩

/-- C8: argument binding maps each declared parameter, in declared order,
to the job's JSON argument value: the empty string when the mapping or the
key is absent, the unwrapped string for a JSON string, the re-serialized
JSON text otherwise; bash gets a positional list and powershell an
interleaved flag, value sequence, as on the `[a, b]` example. -/
theorem argument_binding_spec :
    (∀ name, bindArg none name = "")
  ∧ (∀ m name, List.lookup name m = none → bindArg (some m) name = "")
  ∧ (∀ m name s, List.lookup name m = some (some (JsonValue.str s)) →
      bindArg (some m) name = s)
  ∧ (∀ m name v, List.lookup name m = some (some v) →
      (∀ s, v ≠ JsonValue.str s) → bindArg (some m) name = jsonSerialize v)
  ∧ (∀ sig jobArgs, bash_job_args sig jobArgs
      = sig.map (fun n => bindArg jobArgs n))
  ∧ (∀ sig jobArgs, powershell_job_args sig jobArgs
      = sig.flatMap (fun n => ["--" ++ n, bindArg jobArgs n]))
  ∧ bash_job_args ["a", "b"] (some [("a", some (.str "x"))]) = ["x", ""]
  ∧ powershell_job_args ["a", "b"] (some [("a", some (.str "x"))])
      = ["--a", "x", "--b", ""] := by
  refine ⟨fun _ => rfl, ?_, ?_, ?_, fun _ _ => rfl, ?_, by decide, by decide⟩
  · intro m name h
    simp [bindArg, h]
  · intro m name s h
    simp [bindArg, h, raw_to_string]
  · intro m name v h hv
    simp only [bindArg, h]
    cases v with
    | str s => exact absurd rfl (hv s)
    | null => rfl
    | bool b => rfl
    | num n => rfl
    | arr xs => rfl
    | obj fs => rfl
  · intro sig jobArgs
    simp [powershell_job_args, List.flatMap_map]

/-- C8 witness: the string-unwrapping clause instantiated at the example
mapping. -/
theorem argument_binding_spec_witness :
    bindArg (some [("a", some (JsonValue.str "x"))]) "a" = "x" :=
  argument_binding_spec.2.2.1 [("a", some (JsonValue.str "x"))] "a" "x" rfl

/-- C10: a job argument whose raw JSON text fails to parse binds to the
empty string, indistinguishable at the command line from a parameter that
is absent from the argument mapping. -/
theorem raw_parse_failure_binds_empty :
    raw_to_string none = ""
  ∧ (∀ sig name, bash_job_args sig (some [(name, none)])
      = bash_job_args sig (some []))
  ∧ (∀ sig name, bash_job_args sig (some [(name, none)])
      = bash_job_args sig none)
  ∧ (∀ sig name, powershell_job_args sig (some [(name, none)])
      = powershell_job_args sig (some [])) := by
  have key : ∀ n name : String, bindArg (some [(name, none)]) n = "" := by
    intro n name
    simp only [bindArg, List.lookup]
    rcases h : n == name with _ | _ <;> simp [raw_to_string]
  have key2 : ∀ n : String,
      bindArg (some ([] : List (String × Option JsonValue))) n = "" :=
    fun _ => rfl
  have key3 : ∀ n : String, bindArg none n = "" := fun _ => rfl
  refine ⟨rfl, ?_, ?_, ?_⟩ <;> intro sig name <;>
    simp [bash_job_args, powershell_job_args, key, key2, key3]

theorem envLookup_nil (k : String) : envLookup [] k = none := rfl

theorem envLookup_envSet_isSome (m : EnvList) (k v : String) (q : String) :
    (envLookup (envSet m k v) q).isSome ↔ q = k ∨ (envLookup m q).isSome := by
  simp only [envLookup, envSet, List.lookup]
  by_cases h : q = k
  · simp [h]
  · have hb : (q == k) = false := by simp [h]
    simp [hb, h]

theorem withRustLog_keys (reserved : EnvList) :
    (withRustLog reserved).map Prod.fst = "RUST_LOG" :: reserved.map Prod.fst :=
  rfl

theorem envLookup_envSets_isSome (kvs : List (String × String)) (m : EnvList)
    (q : String) :
    (envLookup (envSets m kvs) q).isSome
      ↔ q ∈ kvs.map Prod.fst ∨ (envLookup m q).isSome := by
  induction kvs generalizing m with
  | nil => simp [envSets]
  | cons kv kvs ih =>
    simp only [envSets, List.foldl_cons] at *
    rw [ih]
    simp [envLookup_envSet_isSome]
    tauto

/-- C4: every child environment built by `handle_bash_job` or
`handle_powershell_job` is constructed from a cleared inherited
environment, so it does not depend on any variable of the worker's own
environment, and the variables present are exactly the allow-list: the
reserved job variables with the `RUST_LOG` override, `PATH`,
`BASE_INTERNAL_URL`, plus `TZ` for powershell, and `HOME` together with
the supplied base environment map in direct-execution mode only. -/
theorem child_env_allowlist
    (w w' envs reserved : EnvList) (pathEnv baseUrl homeEnv tzEnv : String) :
    (bash_env_sandboxed w reserved pathEnv baseUrl
        = bash_env_sandboxed w' reserved pathEnv baseUrl
      ∧ bash_env_direct w envs reserved pathEnv baseUrl homeEnv
        = bash_env_direct w' envs reserved pathEnv baseUrl homeEnv
      ∧ powershell_env_sandboxed w reserved tzEnv pathEnv baseUrl
        = powershell_env_sandboxed w' reserved tzEnv pathEnv baseUrl
      ∧ powershell_env_direct w envs reserved tzEnv pathEnv baseUrl homeEnv
        = powershell_env_direct w' envs reserved tzEnv pathEnv baseUrl homeEnv)
  ∧ (∀ k, (envLookup (bash_env_sandboxed w reserved pathEnv baseUrl) k).isSome
      ↔ k = "BASE_INTERNAL_URL" ∨ k = "PATH" ∨ k = "RUST_LOG"
        ∨ k ∈ reserved.map Prod.fst)
  ∧ (∀ k, (envLookup (bash_env_direct w envs reserved pathEnv baseUrl homeEnv)
        k).isSome
      ↔ k = "HOME" ∨ k = "BASE_INTERNAL_URL" ∨ k = "PATH" ∨ k = "RUST_LOG"
        ∨ k ∈ reserved.map Prod.fst ∨ k ∈ envs.map Prod.fst)
  ∧ (∀ k, (envLookup (powershell_env_sandboxed w reserved tzEnv pathEnv baseUrl)
        k).isSome
      ↔ k = "BASE_INTERNAL_URL" ∨ k = "PATH" ∨ k = "TZ" ∨ k = "RUST_LOG"
        ∨ k ∈ reserved.map Prod.fst)
  ∧ (∀ k, (envLookup (powershell_env_direct w envs reserved tzEnv pathEnv
        baseUrl homeEnv) k).isSome
      ↔ k = "HOME" ∨ k = "BASE_INTERNAL_URL" ∨ k = "PATH" ∨ k = "TZ"
        ∨ k = "RUST_LOG" ∨ k ∈ reserved.map Prod.fst ∨ k ∈ envs.map Prod.fst) := by
  refine ⟨⟨rfl, rfl, rfl, rfl⟩, ?_, ?_, ?_, ?_⟩ <;> intro k <;>
    simp only [bash_env_sandboxed, bash_env_direct, powershell_env_sandboxed,
      powershell_env_direct, envClear, envLookup_envSet_isSome,
      envLookup_envSets_isSome, withRustLog_keys, List.mem_cons,
      envLookup_nil, Option.isSome_none, Bool.false_eq_true, or_false] <;>
    tauto

theorem splitSep_cons (sep c : Char) (cs : List Char) :
    splitSep sep (c :: cs) =
      if c = sep then [] :: splitSep sep cs
      else
        match splitSep sep cs with
        | [] => [[c]]
        | s :: ss => (c :: s) :: ss := rfl

theorem splitSep_ne_nil (sep : Char) (cs : List Char) : splitSep sep cs ≠ [] := by
  cases cs with
  | nil => simp [splitSep]
  | cons c cs =>
    simp only [splitSep]
    split
    · simp
    · split <;> simp

theorem mem_splitSep_not_sep {sep : Char} {cs : List Char} :
    ∀ {s : List Char}, s ∈ splitSep sep cs → sep ∉ s := by
  induction cs with
  | nil =>
    intro s h
    simp [splitSep] at h
    subst h
    simp
  | cons c cs ih =>
    intro s h
    simp only [splitSep] at h
    by_cases hc : c = sep
    · rw [if_pos hc] at h
      rcases List.mem_cons.mp h with rfl | h
      · simp
      · exact ih h
    · rw [if_neg hc] at h
      cases hsp : splitSep sep cs with
      | nil => exact absurd hsp (splitSep_ne_nil sep cs)
      | cons s0 ss =>
        rw [hsp] at h
        rcases List.mem_cons.mp h with rfl | h
        · intro hmem
          rcases List.mem_cons.mp hmem with rfl | hmem
          · exact hc rfl
          · exact ih (hsp ▸ List.mem_cons_self s0 ss) hmem
        · exact ih (hsp ▸ List.mem_cons_of_mem _ h)

theorem splitSep_no_sep {sep : Char} :
    ∀ {s : List Char}, sep ∉ s → splitSep sep s = [s] := by
  intro s
  induction s with
  | nil => intro _; rfl
  | cons c cs ih =>
    intro h
    have hc : ¬ c = sep := fun hh => h (hh ▸ List.mem_cons_self c cs)
    have hcs : sep ∉ cs := fun hh => h (List.mem_cons_of_mem _ hh)
    simp only [splitSep, if_neg hc, ih hcs]

theorem splitSep_append_sep {sep : Char} :
    ∀ {s : List Char}, sep ∉ s →
      ∀ t, splitSep sep (s ++ sep :: t) = s :: splitSep sep t := by
  intro s
  induction s with
  | nil => intro _ t; simp [splitSep]
  | cons c cs ih =>
    intro h t
    have hc : ¬ c = sep := fun hh => h (hh ▸ List.mem_cons_self c cs)
    have hcs : sep ∉ cs := fun hh => h (List.mem_cons_of_mem _ hh)
    show splitSep sep (c :: (cs ++ sep :: t)) = (c :: cs) :: splitSep sep t
    rw [splitSep_cons, if_neg hc, ih hcs t]

theorem splitSep_intercalateSlash :
    ∀ {ss : List (List Char)}, ss ≠ [] → (∀ s ∈ ss, '/' ∉ s) →
      splitSep '/' (intercalateSlash ss) = ss := by
  intro ss
  induction ss with
  | nil => intro h _; exact absurd rfl h
  | cons s0 rest ih =>
    intro _ h
    cases rest with
    | nil =>
      exact splitSep_no_sep (h s0 (List.mem_cons_self _ _))
    | cons s1 rest' =>
      have hstep : intercalateSlash (s0 :: s1 :: rest')
          = s0 ++ '/' :: intercalateSlash (s1 :: rest') := rfl
      rw [hstep, splitSep_append_sep (h s0 (List.mem_cons_self _ _)),
        ih (by simp) (fun s hs => h s (List.mem_cons_of_mem _ hs))]

theorem classifySeg_of_good {s : List Char} (h : goodSeg s) :
    classifySeg s = some (.normal s) := by
  obtain ⟨h1, h2, h3, _⟩ := h
  simp [classifySeg, h1, h2, h3]

theorem filterMap_classifySeg_of_good :
    ∀ {ss : List (List Char)}, (∀ s ∈ ss, goodSeg s) →
      ss.filterMap classifySeg = ss.map PComponent.normal := by
  intro ss
  induction ss with
  | nil => intro _; rfl
  | cons s rest ih =>
    intro h
    rw [List.filterMap_cons, classifySeg_of_good (h s (List.mem_cons_self _ _)),
      List.map_cons, ih (fun x hx => h x (List.mem_cons_of_mem _ hx))]

theorem componentsOf_normal_good {p s : List Char}
    (h : PComponent.normal s ∈ componentsOf p) : goodSeg s := by
  unfold componentsOf at h
  rcases List.mem_append.mp h with h | h
  · split at h <;> simp at h
  · obtain ⟨seg, hseg, hcl⟩ := List.mem_filterMap.mp h
    unfold classifySeg at hcl
    split_ifs at hcl with h1 h2 h3 <;> simp only [Option.some.injEq,
      PComponent.normal.injEq, reduceCtorEq] at hcl
    subst hcl
    exact ⟨h1, h2, h3, mem_splitSep_not_sep hseg⟩

theorem foldl_ppStep_good :
    ∀ (cs : List PComponent) (init : NormPath),
      (∀ s, PComponent.normal s ∈ cs → goodSeg s) →
      (∀ s ∈ init.segs, goodSeg s) →
      ∀ s ∈ (cs.foldl ppStep init).segs, goodSeg s := by
  intro cs
  induction cs with
  | nil => intro init _ hi; exact hi
  | cons c cs ih =>
    intro init hc hi
    rw [List.foldl_cons]
    apply ih _ (fun s hs => hc s (List.mem_cons_of_mem _ hs))
    intro s hs
    cases c with
    | rootDir => simp [ppStep] at hs
    | curDir => exact hi s hs
    | parentDir => exact hi s (List.dropLast_subset _ hs)
    | normal s0 =>
      rcases List.mem_append.mp hs with h | h
      · exact hi s h
      · simp only [List.mem_singleton] at h
        subst h
        exact hc s (by simp)

theorem parsePathCore_segs_good (p : List Char) :
    ∀ s ∈ (parsePathCore (componentsOf p)).segs, goodSeg s := by
  have hc : ∀ s, PComponent.normal s ∈ componentsOf p → goodSeg s :=
    fun s h => componentsOf_normal_good h
  cases hcomp : componentsOf p with
  | nil => simp [parsePathCore]
  | cons c rest =>
    have hc' : ∀ s, PComponent.normal s ∈ c :: rest → goodSeg s :=
      fun s hs => hc s (hcomp ▸ hs)
    cases c with
    | rootDir =>
      exact foldl_ppStep_good rest ⟨true, []⟩
        (fun s hs => hc' s (List.mem_cons_of_mem _ hs)) (by simp)
    | curDir => exact foldl_ppStep_good _ ⟨false, []⟩ hc' (by simp)
    | parentDir => exact foldl_ppStep_good _ ⟨false, []⟩ hc' (by simp)
    | normal s0 => exact foldl_ppStep_good _ ⟨false, []⟩ hc' (by simp)

theorem componentsOf_renderPath (np : NormPath)
    (h : ∀ s ∈ np.segs, goodSeg s) :
    componentsOf (renderPath np)
      = (if np.hasRoot then [PComponent.rootDir] else [])
          ++ np.segs.map PComponent.normal := by
  obtain ⟨root, segs⟩ := np
  cases root with
  | true =>
    cases segs with
    | nil => rfl
    | cons s0 rest =>
      have h' : ∀ s ∈ s0 :: rest, goodSeg s := h
      have hns : ∀ s ∈ s0 :: rest, '/' ∉ s := fun s hs => (h' s hs).2.2.2
      show componentsOf ('/' :: intercalateSlash (s0 :: rest))
          = [PComponent.rootDir] ++ (s0 :: rest).map PComponent.normal
      have hsp : splitSep '/' ('/' :: intercalateSlash (s0 :: rest))
          = [] :: (s0 :: rest) := by
        rw [splitSep_cons, if_pos rfl,
          splitSep_intercalateSlash (by simp) hns]
      unfold componentsOf
      rw [hsp, List.head?_cons, if_pos rfl]
      have hnil : classifySeg [] = none := rfl
      rw [List.filterMap_cons_none hnil, filterMap_classifySeg_of_good h']
  | false =>
    cases segs with
    | nil => rfl
    | cons s0 rest =>
      have h' : ∀ s ∈ s0 :: rest, goodSeg s := h
      have hg := h' s0 (List.mem_cons_self _ _)
      have hns : ∀ s ∈ s0 :: rest, '/' ∉ s := fun s hs => (h' s hs).2.2.2
      obtain ⟨c0, s0', rfl⟩ : ∃ c0 s0', s0 = c0 :: s0' := by
        cases s0 with
        | nil => exact absurd rfl hg.1
        | cons a b => exact ⟨a, b, rfl⟩
      have hc0 : ¬ c0 = '/' := by
        intro hh
        exact (hns _ (List.mem_cons_self _ _)) (hh ▸ List.mem_cons_self c0 s0')
      show componentsOf (intercalateSlash ((c0 :: s0') :: rest))
          = ((c0 :: s0') :: rest).map PComponent.normal
      have hhead : (intercalateSlash ((c0 :: s0') :: rest)).head? = some c0 := by
        cases rest with
        | nil => rfl
        | cons s1 rest' => rfl
      have hif : ¬ ((intercalateSlash ((c0 :: s0') :: rest)).head? = some '/') := by
        rw [hhead]
        simp [hc0]
      unfold componentsOf
      rw [if_neg hif, splitSep_intercalateSlash (by simp) hns,
        filterMap_classifySeg_of_good h']
      rfl

theorem foldl_ppStep_map_normal :
    ∀ (segs : List (List Char)) (r : Bool) (acc : List (List Char)),
      (segs.map PComponent.normal).foldl ppStep ⟨r, acc⟩ = ⟨r, acc ++ segs⟩ := by
  intro segs
  induction segs with
  | nil => intro r acc; simp
  | cons s rest ih =>
    intro r acc
    rw [List.map_cons, List.foldl_cons]
    show (rest.map PComponent.normal).foldl ppStep ⟨r, acc ++ [s]⟩ = _
    rw [ih]
    simp

theorem parsePathCore_shape (r : Bool) (segs : List (List Char)) :
    parsePathCore ((if r then [PComponent.rootDir] else [])
        ++ segs.map PComponent.normal)
      = ⟨r, segs⟩ := by
  cases r with
  | true =>
    show parsePathCore (PComponent.rootDir :: segs.map PComponent.normal) = _
    show (segs.map PComponent.normal).foldl ppStep ⟨true, []⟩ = _
    rw [foldl_ppStep_map_normal]
    rfl
  | false =>
    show parsePathCore (segs.map PComponent.normal) = _
    cases segs with
    | nil => rfl
    | cons s rest =>
      show ((s :: rest).map PComponent.normal).foldl ppStep ⟨false, []⟩ = _
      rw [foldl_ppStep_map_normal]
      rfl

/-- C9: for every input path, the output of `parse_path` contains no
parent-directory and no current-directory components, and `parse_path` is
idempotent. -/
theorem parse_path_idempotent (p : String) :
    (∀ c ∈ componentsOf (parse_path p).data,
        c ≠ PComponent.parentDir ∧ c ≠ PComponent.curDir)
  ∧ parse_path (parse_path p) = parse_path p := by
  have hgood : ∀ s ∈ (parsePathCore (componentsOf p.data)).segs, goodSeg s :=
    parsePathCore_segs_good p.data
  have hdata : (parse_path p).data
      = renderPath (parsePathCore (componentsOf p.data)) := rfl
  have hchar := componentsOf_renderPath _ hgood
  constructor
  · intro c hc
    rw [hdata, hchar] at hc
    rcases List.mem_append.mp hc with hmem | hmem
    · split at hmem
      · simp only [List.mem_singleton] at hmem
        subst hmem
        exact ⟨by simp, by simp⟩
      · simp at hmem
    · obtain ⟨s, _, rfl⟩ := List.mem_map.mp hmem
      exact ⟨by simp, by simp⟩
  · show (⟨renderPath (parsePathCore (componentsOf (parse_path p).data))⟩ : String)
        = parse_path p
    rw [hdata, hchar, parsePathCore_shape]
    rfl

/-- C9 witness: the component clause instantiated at `a/../b` and its sole
output component. -/
theorem parse_path_idempotent_witness :
    PComponent.normal ['b'] ∈ componentsOf (parse_path "a/../b").data
      ∧ PComponent.normal ['b'] ≠ PComponent.parentDir
      ∧ PComponent.normal ['b'] ≠ PComponent.curDir := by
  have h := (parse_path_idempotent "a/../b").1 (PComponent.normal ['b']) (by decide)
  exact ⟨by decide, h.1, h.2⟩

/-! ## Resolution-pass invariants -/

theorem stExtends_refl (src : String) (st : RState) : StExtends src st st :=
  ⟨fun _ hk => hk,
   ⟨[], by simp, List.nodup_nil, by simp⟩,
   ⟨[], by simp, List.nodup_nil, by simp⟩⟩

theorem stExtends_same_traces (src : String) (st st' : RState)
    (hv : st'.visited = st.visited) (hf : st'.fetches = st.fetches)
    (hw : st'.writes = st.writes) : StExtends src st st' :=
  ⟨fun _ hk => hv ▸ hk,
   ⟨[], by simp [hf], List.nodup_nil, by simp⟩,
   ⟨[], by simp [hw], List.nodup_nil, by simp⟩⟩

theorem stExtends_trans {src : String} {st1 st2 st3 : RState}
    (h12 : StExtends src st1 st2) (h23 : StExtends src st2 st3) :
    StExtends src st1 st3 := by
  obtain ⟨hv12, ⟨f1, hf1, hnf1, hkf1⟩, ⟨w1, hw1, hnw1, hkw1⟩⟩ := h12
  obtain ⟨hv23, ⟨f2, hf2, hnf2, hkf2⟩, ⟨w2, hw2, hnw2, hkw2⟩⟩ := h23
  refine ⟨fun k hk => hv23 k (hv12 k hk), ⟨f1 ++ f2, ?_, ?_, ?_⟩,
    ⟨w1 ++ w2, ?_, ?_, ?_⟩⟩
  · rw [hf2, hf1, List.append_assoc]
  · refine hnf1.append hnf2 ?_
    intro k hk1 hk2
    exact ((hkf2 k hk2).1).1 ((hkf1 k hk1).1).2
  · intro k hk
    rcases List.mem_append.mp hk with hk | hk
    · exact ⟨⟨((hkf1 k hk).1).1, hv23 k ((hkf1 k hk).1).2⟩, (hkf1 k hk).2⟩
    · refine ⟨⟨fun hmem => ((hkf2 k hk).1).1 (hv12 k hmem),
        ((hkf2 k hk).1).2⟩, (hkf2 k hk).2⟩
  · rw [hw2, hw1, List.append_assoc]
  · refine hnw1.append hnw2 ?_
    intro k hk1 hk2
    exact ((hkw2 k hk2).1).1 ((hkw1 k hk1).1).2
  · intro k hk
    rcases List.mem_append.mp hk with hk | hk
    · exact ⟨⟨((hkw1 k hk).1).1, hv23 k ((hkw1 k hk).1).2⟩, (hkw1 k hk).2⟩
    · refine ⟨⟨fun hmem => ((hkw2 k hk).1).1 (hv12 k hmem),
        ((hkw2 k hk).1).2⟩, (hkw2 k hk).2⟩

theorem resolveModuleKey_main_or_ne (src module0 : String) :
    resolveModuleKey src module0 = "main" ∨ resolveModuleKey src module0 ≠ src := by
  unfold resolveModuleKey
  by_cases hm : normalizedModuleKey src module0 = src
  · left
    simp [hm]
  · right
    simp [hm]

theorem lookup_some_mem_keys {l : List (String × String)} {k v : String}
    (h : List.lookup k l = some v) : k ∈ l.map Prod.fst := by
  induction l with
  | nil => cases h
  | cons kv l ih =>
    obtain ⟨k1, v1⟩ := kv
    by_cases hb : k = k1
    · simp [hb]
    · have hbeq : (k == k1) = false := by simp [hb]
      rw [List.lookup_cons, hbeq] at h
      simp only [List.map_cons, List.mem_cons]
      exact Or.inr (ih h)

theorem filter_length_mono {α : Type} (l : List α) (p q : α → Bool)
    (himp : ∀ a, q a = true → p a = true) :
    (l.filter q).length ≤ (l.filter p).length := by
  induction l with
  | nil => simp
  | cons a l ih =>
    simp only [List.filter_cons]
    cases hq : q a
    · cases hp : p a
      · simpa using ih
      · simp only [List.length_cons]
        exact Nat.le_succ_of_le ih
    · rw [himp a hq]
      simpa using ih

theorem filter_length_lt {α : Type} {l : List α} {p q : α → Bool} {a : α}
    (hmem : a ∈ l) (hpa : p a = true) (hqa : q a = false)
    (himp : ∀ b, q b = true → p b = true) :
    (l.filter q).length < (l.filter p).length := by
  induction l with
  | nil => cases hmem
  | cons x l ih =>
    simp only [List.filter_cons]
    rcases List.mem_cons.mp hmem with rfl | hmem'
    · rw [hpa, hqa]
      simp only [List.length_cons]
      exact Nat.lt_succ_of_le (filter_length_mono l p q himp)
    · cases hq : q x
      · cases hp : p x
        · simpa using ih hmem'
        · simp only [List.length_cons]
          exact Nat.lt_succ_of_lt (ih hmem')
      · rw [himp x hq]
        simpa using ih hmem'

theorem depsMeasure_mono (store : List (String × String)) {st st' : RState}
    (h : ∀ k ∈ st.visited, k ∈ st'.visited) :
    depsMeasure store st' ≤ depsMeasure store st := by
  apply filter_length_mono
  intro a ha
  simp at ha ⊢
  exact fun hmem => ha (h a hmem)

theorem depsMeasure_insert_lt (store : List (String × String)) (st : RState)
    {module : String} (hmem : module ∈ storeKeys store)
    (hnv : module ∉ st.visited) (st1 : RState)
    (hv1 : st1.visited = module :: st.visited) :
    depsMeasure store st1 < depsMeasure store st := by
  unfold depsMeasure
  rw [hv1]
  apply filter_length_lt hmem
  · simp [hnv]
  · simp
  · intro b hb
    simp at hb ⊢
    exact fun hmemb => hb.2 hmemb

theorem resolveStep_extends
    (resolve : RState → String → Option (RState × String))
    (store : List (String × String)) (installed : List String)
    (src cacheDir line : String)
    (hres : ∀ s c s' c', resolve s c = some (s', c') → StExtends src s s')
    (st : RState) (cc : String) (st' : RState) (cc' : String)
    (h : resolveStep resolve store installed src cacheDir line st cc
      = some (st', cc')) :
    StExtends src st st' := by
  simp only [resolveStep] at h
  split at h
  · cases h
    exact stExtends_refl src st
  · next wr hcap =>
    split at h
    · cases h
      exact stExtends_same_traces src st _ rfl rfl rfl
    · split at h
      · -- internal-workspace branch
        split at h
        · cases h
          exact stExtends_refl src st
        · next hvis =>
          have hmod := resolveModuleKey_main_or_ne src (strReplace wr.2 ".ps1" "")
          have hnv : resolveModuleKey src (strReplace wr.2 ".ps1" "")
              ∉ st.visited := by
            simpa using hvis
          split at h
          · next depContent hlk =>
            split at h
            · cases h
              refine ⟨fun k hk => List.mem_cons_of_mem _ hk,
                ⟨[resolveModuleKey src (strReplace wr.2 ".ps1" "")], rfl,
                  List.nodup_singleton _, ?_⟩,
                ⟨[], by simp, List.nodup_nil, by simp⟩⟩
              intro k hk
              simp only [List.mem_singleton] at hk
              subst hk
              exact ⟨⟨hnv, List.mem_cons_self _ _⟩, hmod⟩
            · split at h
              · cases h
              · next st2r hres2 =>
                cases h
                obtain ⟨st2, rc⟩ := st2r
                have e2 := hres _ depContent st2 rc hres2
                obtain ⟨hv2, ⟨f2, hf2, hnf2, hkf2⟩, ⟨w2, hw2, hnw2, hkw2⟩⟩ := e2
                refine ⟨?_, ⟨resolveModuleKey src (strReplace wr.2 ".ps1" "")
                    :: f2, ?_, ?_, ?_⟩,
                  ⟨w2 ++ [resolveModuleKey src (strReplace wr.2 ".ps1" "")],
                    ?_, ?_, ?_⟩⟩
                · exact fun k hk => hv2 k (List.mem_cons_of_mem _ hk)
                · show st2.fetches = _
                  rw [hf2]
                  show (st.fetches ++
                    [resolveModuleKey src (strReplace wr.2 ".ps1" "")]) ++ f2 = _
                  simp
                · refine List.nodup_cons.mpr ⟨?_, hnf2⟩
                  intro hmem
                  exact ((hkf2 _ hmem).1).1 (List.mem_cons_self _ _)
                · intro k hk
                  rcases List.mem_cons.mp hk with rfl | hk
                  · exact ⟨⟨hnv, hv2 _ (List.mem_cons_self _ _)⟩, hmod⟩
                  · refine ⟨⟨fun hkst => ((hkf2 k hk).1).1
                      (List.mem_cons_of_mem _ hkst), ((hkf2 k hk).1).2⟩,
                      (hkf2 k hk).2⟩
                · show st2.writes ++ _ = _
                  rw [hw2]
                  show (st.writes ++ w2) ++ _ = _
                  simp
                · refine hnw2.append (List.nodup_singleton _) ?_
                  intro a ha hb
                  simp only [List.mem_singleton] at hb
                  subst hb
                  exact ((hkw2 _ ha).1).1 (List.mem_cons_self _ _)
                · intro k hk
                  rcases List.mem_append.mp hk with hk | hk
                  · refine ⟨⟨fun hkst => ((hkw2 k hk).1).1
                      (List.mem_cons_of_mem _ hkst), ((hkw2 k hk).1).2⟩,
                      (hkw2 k hk).2⟩
                  · simp only [List.mem_singleton] at hk
                    subst hk
                    exact ⟨⟨hnv, hv2 _ (List.mem_cons_self _ _)⟩, hmod⟩
          · cases h
            refine ⟨fun k hk => List.mem_cons_of_mem _ hk,
              ⟨[resolveModuleKey src (strReplace wr.2 ".ps1" "")], rfl,
                List.nodup_singleton _, ?_⟩,
              ⟨[], by simp, List.nodup_nil, by simp⟩⟩
            intro k hk
            simp only [List.mem_singleton] at hk
            subst hk
            exact ⟨⟨hnv, List.mem_cons_self _ _⟩, hmod⟩
      · cases h
        exact stExtends_same_traces src st _ rfl rfl rfl

theorem resolveStep_isSome
    (resolve : RState → String → Option (RState × String))
    (store : List (String × String)) (installed : List String)
    (src cacheDir line : String) (B : Nat)
    (hsome : ∀ s c, depsMeasure store s < B → (resolve s c).isSome)
    (st : RState) (cc : String) (hB : depsMeasure store st ≤ B) :
    (resolveStep resolve store installed src cacheDir line st cc).isSome := by
  simp only [resolveStep]
  split
  · simp
  · next wr hcap =>
    split
    · simp
    · split
      · split
        · simp
        · next hvis =>
          have hnv : resolveModuleKey src (strReplace wr.2 ".ps1" "")
              ∉ st.visited := by
            simpa using hvis
          split
          · next depContent hlk =>
            split
            · simp
            · have hmem : resolveModuleKey src (strReplace wr.2 ".ps1" "")
                  ∈ storeKeys store :=
                List.mem_dedup.mpr (lookup_some_mem_keys hlk)
              have hlt := depsMeasure_insert_lt store st hmem hnv
                { st with visited := resolveModuleKey src (strReplace wr.2 ".ps1" "") :: st.visited, fetches := st.fetches ++ [resolveModuleKey src (strReplace wr.2 ".ps1" "")] }
                rfl
              have hrsome := hsome _ depContent (lt_of_lt_of_le hlt hB)
              cases hres2 : resolve { st with visited := resolveModuleKey src (strReplace wr.2 ".ps1" "") :: st.visited, fetches := st.fetches ++ [resolveModuleKey src (strReplace wr.2 ".ps1" "")] } depContent with
              | none => rw [hres2] at hrsome; cases hrsome
              | some p => simp
          · simp
      · simp

theorem resolveLines_extends
    (resolve : RState → String → Option (RState × String))
    (store : List (String × String)) (installed : List String)
    (src cacheDir : String)
    (hres : ∀ s c s' c', resolve s c = some (s', c') → StExtends src s s') :
    ∀ (lines : List String) (st : RState) (cc : String) (st' : RState)
      (cc' : String),
      resolveLines resolve store installed src cacheDir lines st cc
        = some (st', cc') →
      StExtends src st st' := by
  intro lines
  induction lines with
  | nil =>
    intro st cc st' cc' h
    simp only [resolveLines, Option.some.injEq, Prod.mk.injEq] at h
    obtain ⟨rfl, rfl⟩ := h
    exact stExtends_refl src st
  | cons line rest ih =>
    intro st cc st' cc' h
    simp only [resolveLines] at h
    split at h
    · cases h
    · next p hstep =>
      exact stExtends_trans
        (resolveStep_extends resolve store installed src cacheDir line hres
          st cc p.1 p.2 (by rw [hstep]))
        (ih p.1 p.2 st' cc' h)

theorem resolveLines_isSome
    (resolve : RState → String → Option (RState × String))
    (store : List (String × String)) (installed : List String)
    (src cacheDir : String) (B : Nat)
    (hsome : ∀ s c, depsMeasure store s < B → (resolve s c).isSome)
    (hres : ∀ s c s' c', resolve s c = some (s', c') → StExtends src s s') :
    ∀ (lines : List String) (st : RState) (cc : String),
      depsMeasure store st ≤ B →
      (resolveLines resolve store installed src cacheDir lines st cc).isSome := by
  intro lines
  induction lines with
  | nil =>
    intro st cc _
    simp [resolveLines]
  | cons line rest ih =>
    intro st cc hB
    simp only [resolveLines]
    have hstep := resolveStep_isSome resolve store installed src cacheDir line
      B hsome st cc hB
    cases hs : resolveStep resolve store installed src cacheDir line st cc with
    | none => rw [hs] at hstep; cases hstep
    | some p =>
      have hext := resolveStep_extends resolve store installed src cacheDir
        line hres st cc p.1 p.2 (by rw [hs])
      have hle : depsMeasure store p.1 ≤ depsMeasure store st :=
        depsMeasure_mono store hext.1
      exact ih p.1 p.2 (le_trans hle hB)

theorem handle_powershell_deps_extends
    (store : List (String × String)) (installed : List String)
    (src cacheDir : String) :
    ∀ (fuel : Nat) (st : RState) (content : String) (st' : RState)
      (cc' : String),
      handle_powershell_deps store installed src cacheDir fuel st content
        = some (st', cc') →
      StExtends src st st' := by
  intro fuel
  induction fuel with
  | zero => intro st c st' cc' h; cases h
  | succ n ih =>
    intro st c st' cc' h
    exact resolveLines_extends _ store installed src cacheDir
      (fun s c s' c' hh => ih s c s' c' hh) (rustLines c) st c st' cc' h

theorem handle_powershell_deps_isSome
    (store : List (String × String)) (installed : List String)
    (src cacheDir : String) :
    ∀ (fuel : Nat) (st : RState) (content : String),
      depsMeasure store st < fuel →
      (handle_powershell_deps store installed src cacheDir fuel st
        content).isSome := by
  intro fuel
  induction fuel with
  | zero => intro st c h; cases h
  | succ n ih =>
    intro st c h
    simp only [handle_powershell_deps]
    exact resolveLines_isSome _ store installed src cacheDir n
      (fun s cdep hs => ih s cdep hs)
      (fun s cdep s' c' hh =>
        handle_powershell_deps_extends store installed src cacheDir n
          s cdep s' c' hh)
      (rustLines c) st c (Nat.lt_succ_iff.mp h)

/-- C2: for every import graph, cyclic and diamond-shaped ones included,
`handle_powershell_deps` terminates — fuel exceeding the number of
unvisited store keys always suffices, so the unbounded Rust recursion
never runs forever — and within one resolution pass each distinct module
key is fetched from the script store at most once and its module file is
written at most once: a key already in the visited set is never fetched or
written, and no new key is fetched or written twice. -/
theorem powershell_deps_terminates_fetch_once
    (store : List (String × String)) (installed : List String)
    (src cacheDir : String) (st : RState) (content : String) :
    (handle_powershell_deps store installed src cacheDir
        (depsMeasure store st + 1) st content).isSome
  ∧ (∀ fuel st' cc',
      handle_powershell_deps store installed src cacheDir fuel st content
        = some (st', cc') →
      ∃ newF newW, st'.fetches = st.fetches ++ newF
        ∧ st'.writes = st.writes ++ newW
        ∧ newF.Nodup ∧ newW.Nodup
        ∧ (∀ k ∈ newF, k ∉ st.visited) ∧ (∀ k ∈ newW, k ∉ st.visited)) := by
  constructor
  · exact handle_powershell_deps_isSome store installed src cacheDir _ st
      content (Nat.lt_succ_self _)
  · intro fuel st' cc' h
    obtain ⟨_, ⟨newF, hf, hnf, hkf⟩, ⟨newW, hw, hnw, hkw⟩⟩ :=
      handle_powershell_deps_extends store installed src cacheDir fuel st
        content st' cc' h
    exact ⟨newF, newW, hf, hw, hnf, hnw,
      fun k hk => ((hkf k hk).1).1, fun k hk => ((hkw k hk).1).1⟩

/-- C2 witness: the fetch-once clause instantiated at a concrete resolution
of one internal module, with the run discharged by evaluation. -/
theorem powershell_deps_terminates_fetch_once_witness :
    ∃ newF newW, (["f/foo/lib"] : List String) = [] ++ newF
      ∧ (["f/foo/lib"] : List String) = [] ++ newW
      ∧ newF.Nodup ∧ newW.Nodup
      ∧ (∀ k ∈ newF, k ∉ (["main"] : List String))
      ∧ (∀ k ∈ newW, k ∉ (["main"] : List String)) :=
  (powershell_deps_terminates_fetch_once
      [("f/foo/lib", "Import-Module Az2")] [] "f/foo/bar" "/c"
      ⟨"", ["main"], "", [], [], []⟩ "Import-Module f/foo/lib").2 2
    ⟨"Save-Module -Path /c -Force Az2;", ["f/foo/lib", "main"],
      "\nAz2 not found in cache", [("f.foo.lib.ps1", "Import-Module Az2")],
      ["f/foo/lib"], ["f/foo/lib"]⟩
    "Import-Module ./f.foo.lib.ps1" (by decide)

/-- C5: an internal import whose lexically normalized key equals the root
script's own path key is aliased to the reserved `"main"` key, and since
`"main"` is seeded into the visited set before resolution starts
(`handle_powershell_job` line 350), a script importing itself by its own
canonical path is never fetched from the store: no pass starting with
`"main"` visited ever adds a fetch of the root key. -/
theorem self_import_aliases_main :
    (∀ src module0, normalizedModuleKey src module0 = src →
      resolveModuleKey src module0 = "main")
  ∧ (∀ store installed src cacheDir fuel st content st' cc',
      "main" ∈ st.visited →
      handle_powershell_deps store installed src cacheDir fuel st content
        = some (st', cc') →
      st'.fetches.count src = st.fetches.count src) := by
  constructor
  · intro src module0 hm
    unfold resolveModuleKey
    simp [hm]
  · intro store installed src cacheDir fuel st content st' cc' hmain h
    obtain ⟨_, ⟨newF, hf, hnf, hkf⟩, _⟩ :=
      handle_powershell_deps_extends store installed src cacheDir fuel st
        content st' cc' h
    rw [hf, List.count_append]
    have hzero : newF.count src = 0 := by
      rw [List.count_eq_zero]
      intro hmem
      rcases (hkf src hmem).2 with hm | hm
      · exact ((hkf src hmem).1).1 (by rw [hm]; exact hmain)
      · exact hm rfl
    omega

/-- C5 witness: the aliasing clause at a concrete self-import, and the
no-fetch clause at a concrete run of `Import-Module ./bar` from the script
`f/foo/bar`, which performs no store fetch at all. -/
theorem self_import_aliases_main_witness :
    resolveModuleKey "f/foo/bar" "./bar" = "main"
  ∧ ([] : List String).count "f/foo/bar"
      = ([] : List String).count "f/foo/bar" :=
  ⟨self_import_aliases_main.1 "f/foo/bar" "./bar" (by decide),
   self_import_aliases_main.2 [("f/foo/bar", "x")] [] "f/foo/bar" "/c" 2
     ⟨"", ["main"], "", [], [], []⟩ "Import-Module ./bar"
     ⟨"", ["main"], "", [], [], []⟩ "Import-Module ./main.ps1"
     (by decide) (by decide)⟩

/-- C6 counterexample: one distinct external module name (`Az`), captured
by two import lines and missing the cache both times, produces two
`Save-Module` directives in the accumulator, not exactly one. -/
theorem external_install_directive_duplicated :
    ∃ p, handle_powershell_deps [] [] "f/foo/bar" "/c" 1
        ⟨"", ["main"], "", [], [], []⟩ "Import-Module Az\nImport-Module Az"
      = some p
    ∧ p.1.install
        = saveModuleDirective "/c" "Az" ++ saveModuleDirective "/c" "Az"
    ∧ p.1.install ≠ saveModuleDirective "/c" "Az" := by
  refine ⟨(⟨"Save-Module -Path /c -Force Az;Save-Module -Path /c -Force Az;",
    ["main"], "\nAz not found in cache\nAz not found in cache", [], [], []⟩,
    "Import-Module Az\nImport-Module Az"), by decide, by decide, by decide⟩

/-- C6 (amended): each captured external import occurrence that misses the
case-insensitive cache lookup appends exactly one Save-Module directive to
the accumulator (so a name captured n times yields n directives), and the
accumulated directives are executed in one single batched invocation, and
only when the accumulator is non-empty; two distinct external modules each
produce exactly one directive. -/
theorem external_install_per_occurrence_batched :
    (∀ resolve store installed src cacheDir line st cc whole raw,
      importCapture line = some (whole, raw) →
      installed.contains (lowerStr (strReplace raw ".ps1" "")) = false →
      isInternalModule (strReplace raw ".ps1" "") = false →
      resolveStep resolve store installed src cacheDir line st cc
        = some ({ st with logs := st.logs ++ "\n" ++ raw ++ " not found in cache", install := st.install ++ saveModuleDirective cacheDir raw }, cc))
  ∧ installInvocations "" = []
  ∧ (∀ s, s ≠ "" → installInvocations s = [["pwsh", "-Command", s]])
  ∧ (∃ p, handle_powershell_deps [] [] "f/foo/bar" "/c" 1
        ⟨"", ["main"], "", [], [], []⟩
        "Import-Module Az\nImport-Module Pester" = some p
      ∧ p.1.install
          = saveModuleDirective "/c" "Az" ++ saveModuleDirective "/c" "Pester"
      ∧ installInvocations p.1.install
          = [["pwsh", "-Command", p.1.install]]) := by
  refine ⟨?_, rfl, ?_, ?_⟩
  · intro resolve store installed src cacheDir line st cc whole raw hcap
      hmiss hext
    simp only [resolveStep, hcap]
    rw [if_neg (by simpa using hmiss), if_neg (by simpa using hext)]
  · intro s hs
    simp [installInvocations, hs]
  · refine ⟨(⟨"Save-Module -Path /c -Force Az;Save-Module -Path /c -Force Pester;",
      ["main"], "\nAz not found in cache\nPester not found in cache", [], [], []⟩,
      "Import-Module Az\nImport-Module Pester"), by decide, by decide, by decide⟩

/-- C6 witness: the per-occurrence clause at a concrete external import and
the single-batch clause at a nonempty accumulator. -/
theorem external_install_per_occurrence_batched_witness :
    resolveStep (fun _ _ => none) [] [] "f/foo/bar" "/c" "Import-Module Az"
        ⟨"", ["main"], "", [], [], []⟩ "Import-Module Az"
      = some (⟨"" ++ saveModuleDirective "/c" "Az", ["main"],
          "" ++ "\n" ++ "Az" ++ " not found in cache", [], [], []⟩,
          "Import-Module Az")
  ∧ installInvocations "x" = [["pwsh", "-Command", "x"]] :=
  ⟨external_install_per_occurrence_batched.1 (fun _ _ => none) [] []
      "f/foo/bar" "/c" "Import-Module Az" ⟨"", ["main"], "", [], [], []⟩
      "Import-Module Az" "Import-Module Az" "Az" (by decide) (by decide)
      (by decide),
   external_install_per_occurrence_batched.2.2.1 "x" (by decide)⟩

end Windmill
